import Mathlib

set_option linter.unusedSectionVars false

/-!
Shallow embedding of `src/fuzzysearch/susbstitutions_only.py` (substitution-only
approximate matching): the dispatcher `find_near_matches_substitutions`, the
ring-counter ("linear programming") matcher, the ngram partition matcher with
its dedup/sort wrapper, and the existence probe.  Sequences are `List α` for an
arbitrary type with decidable equality; Python integers are `Int` where
negativity matters and `Nat` where the source guarantees non-negativity.
`ValueError`s are modelled by an error type following the spec's taxonomy, and
generator functions are modelled as `Except Err (List Match)` (the list is the
full sequence of yielded values; a raised error means no value is produced).
-/

namespace FuzzySub

variable {α : Type} [DecidableEq α]

/-- Modelled from the spec: `fuzzysearch.common.Match` is not under `src/`;
per the spec it is "a pure value constructor Match(start, end, dist) with no
validation".  The Python field `end` is a Lean keyword, so it is `stop` here. -/
structure Match where
  start : Int
  stop : Int
  dist : Int
  deriving DecidableEq, Repr

/-- Error taxonomy from the spec (§7); `zeroDivision` stands for the Python
`ZeroDivisionError` that `subseq_len // (max_substitutions + 1)` raises when
`max_substitutions == -1`. -/
inductive Err where
  | emptySubsequence
  | negativeBudget
  | budgetExceedsLength
  | zeroDivision
  deriving DecidableEq, Repr

/-- Python slice `l[a:b]` for non-negative bounds. -/
def pySlice (l : List α) (a b : Nat) : List α := (l.take b).drop a

/-- The source expression `sum((a != b) for (a, b) in zip(xs, ys))`. -/
def countMismatches (xs ys : List α) : Nat :=
  ((xs.zip ys).filter fun p => decide (¬ p.1 = p.2)).length

/-- Python `range(start, stop, step)` over `Int`, for `step ≠ 0`. -/
def pyRange (start stop step : Int) : List Int :=
  if step = 0 then []
  else
    let len : Int :=
      if 0 < step then (stop - start + step - 1).fdiv step
      else (stop - start + step + 1).fdiv step
    (List.range len.toNat).map fun (i : Nat) => start + step * (i : Int)

/-- Modelled from the spec: `fuzzysearch.common.search_exact` is not under
`src/`.  Per the spec it returns, in increasing order, every index `i` with
`start_bound <= i`, `i + len(fragment) <= end_bound` and
`sequence[i:i+len(fragment)] == fragment`; defaults are `start_bound = 0`,
`end_bound = len(sequence)` (bounds are passed explicitly at every call site
here). -/
def search_exact (fragment sequence : List α) (startBound endBound : Int) :
    List Nat :=
  (List.range (sequence.length + 1)).filter fun i =>
    decide (startBound ≤ (i : Int)) &&
    decide ((i : Int) + fragment.length ≤ endBound) &&
    decide (pySlice sequence i (i + fragment.length) = fragment)

/-! ### Ring-counter ("linear programming") matcher -/

/-- One warm-up increment pass: `for subseq_index in [idx for idx in
char_indexes_in_subsequence[char] if idx <= index]: candidates[subseq_index] += 1`.
`char_indexes_in_subsequence[c]` is exactly the set of positions `j` with
`S[j] = c`, so this bumps every counter `j` with `j ≤ i` and `S[j] = c`. -/
def bumpWarm (S : List α) (i : Nat) (c : α) (cand : List Nat) : List Nat :=
  List.zipWith (fun j v => if j ≤ i ∧ S[j]? = some c then v + 1 else v)
    (List.range cand.length) cand

/-- One warm-up iteration: increments, then `candidates.appendleft(0)` on a
deque with `maxlen = len(subsequence)`. -/
def warmupStep (S : List α) (i : Nat) (c : α) (cand : List Nat) : List Nat :=
  (0 :: bumpWarm S i c cand).take S.length

/-- The first loop of the source, over `islice(enumerate(sequence), L - 1)`. -/
def warmupLoop (S : List α) : Nat → List α → List Nat → List Nat
  | _, [], cand => cand
  | i, c :: rest, cand => warmupLoop S (i + 1) rest (warmupStep S i c cand)

/-- Steady-phase increment pass (no `idx <= index` restriction). -/
def bumpAll (S : List α) (c : α) (cand : List Nat) : List Nat :=
  List.zipWith (fun j v => if S[j]? = some c then v + 1 else v)
    (List.range cand.length) cand

/-- The deque rotation `candidates.rotate(1)`: the last element moves to the
front. -/
def rotateOne (cand : List Nat) : List Nat :=
  match cand.getLast? with
  | none => cand
  | some x => x :: cand.dropLast

/-- One steady-phase iteration of the second loop: increment, rotate, read the
counter at position 0, reset it, and possibly yield a `Match`. -/
def steadyStep (S : List α) (k : Int) (i : Nat) (c : α) (cand : List Nat) :
    List Nat × List Match :=
  let cand1 := bumpAll S c cand
  let cand2 := rotateOne cand1
  let n : Int := (S.length : Int) - cand2.headD 0
  let cand3 := cand2.set 0 0
  (cand3,
    if n ≤ k then [⟨(i : Int) - (S.length - 1 : Nat), (i : Int) + 1, n⟩]
    else [])

/-- The second loop of the source, over the rest of `enumerate(sequence)`. -/
def steadyLoop (S : List α) (k : Int) : Nat → List α → List Nat → List Match
  | _, [], _ => []
  | i, c :: rest, cand =>
    (steadyStep S k i c cand).2 ++
      steadyLoop S k (i + 1) rest (steadyStep S k i c cand).1

/-- The generator body of `find_near_matches_substitutions_linear_programming`
after its empty-subsequence check: warm-up over the first `L - 1` elements
starting from `deque([0])`, then the steady phase over the remaining elements
(the source's single `enumerate` iterator split across the two loops). -/
def linearRun (S T : List α) (k : Int) : List Match :=
  steadyLoop S k (S.length - 1) (T.drop (S.length - 1))
    (warmupLoop S 0 (T.take (S.length - 1)) [0])

/-- Source function `find_near_matches_substitutions_linear_programming`
(lines 38-101). -/
def find_near_matches_substitutions_linear_programming (S T : List α)
    (k : Int) : Except Err (List Match) :=
  if S.isEmpty then .error .emptySubsequence
  else .ok (linearRun S T k)

/-! ### Ngram partition matcher -/

/-- The body of the inner `for index in search_exact(...)` loop of
`_find_near_matches_substitutions_ngrams` for one exact hit `h` of the
fragment starting at `gstart` with length `gLen`: count the mismatches of the
`before` region, short-circuit, count the mismatches of the `after` region,
and yield a `Match` when the total stays within budget.  `search_exact`
guarantees `gstart ≤ h`, so the Python index arithmetic is non-negative. -/
def processHit (S T : List α) (k : Int) (gLen gstart h : Nat) : Option Match :=
  let L := S.length
  let gend := gstart + gLen
  let sBefore := S.take gstart
  let sAfter := S.drop gend
  let seqBefore := pySlice T (h - gstart) h
  let n1 : Nat := if sBefore = seqBefore then 0 else countMismatches seqBefore sBefore
  if ¬ sBefore = seqBefore ∧ k < (n1 : Int) then none
  else
    let seqAfter := pySlice T (h + gLen) (h - gstart + L)
    if sAfter = seqAfter then
      some ⟨(h : Int) - gstart, (h : Int) - gstart + L, n1⟩
    else if (n1 : Int) = k then none
    else
      let n2 := n1 + countMismatches seqAfter sAfter
      if k < (n2 : Int) then none
      else some ⟨(h : Int) - gstart, (h : Int) - gstart + L, n2⟩

/-- The fragment starts enumerated by the source's
`range(0, len(subsequence) - ngram_len + 1, ngram_len)`. -/
def fragmentStarts (S : List α) (g : Int) : List Int :=
  pyRange 0 ((S.length : Int) - g + 1) g

/-- The nested fragment/hit loop of `_find_near_matches_substitutions_ngrams`
for a given fragment length `g`: for each fragment start, search the fragment
exactly within the bounded range and verify each hit. -/
def ngramsLoop (S T : List α) (k g : Int) : List Match :=
  ((fragmentStarts S g).map Int.toNat).flatMap fun gstart =>
    (search_exact (pySlice S gstart (gstart + g.toNat)) T gstart
        ((T.length : Int) - ((S.length : Int) - (gstart + g.toNat)))).filterMap
      (processHit S T k g.toNat gstart)

/-- Source generator `_find_near_matches_substitutions_ngrams` (lines
124-166): compute the fragment length (a Python `ZeroDivisionError` fires
first when `k = -1`), reject a zero fragment length, then run the nested
fragment/hit loop. -/
def ngramsRaw (S T : List α) (k : Int) : Except Err (List Match) :=
  if k + 1 = 0 then .error .zeroDivision
  else
    let g : Int := Int.fdiv (S.length : Int) (k + 1)
    if g = 0 then .error .budgetExceedsLength
    else .ok (ngramsLoop S T k g)

/-- The dedup loop of `find_near_matches_substitutions_ngrams`: keep each
match whose `start` has not been seen yet. -/
def dedupFirstByStart : List Match → List Int → List Match
  | [], _ => []
  | m :: rest, seen =>
    if m.start ∈ seen then dedupFirstByStart rest seen
    else m :: dedupFirstByStart rest (m.start :: seen)

/-- Source function `find_near_matches_substitutions_ngrams` (lines 104-121):
deduplicate by `start` (first occurrence kept) and sort ascending by `start`. -/
def find_near_matches_substitutions_ngrams (S T : List α) (k : Int) :
    Except Err (List Match) :=
  (ngramsRaw S T k).map fun raw =>
    (dedupFirstByStart raw []).mergeSort fun a b => decide (a.start ≤ b.start)

/-- Source function `has_near_match_substitutions_ngrams` (lines 169-183):
true on the first yielded candidate, false when the enumeration completes
empty. -/
def has_near_match_substitutions_ngrams (S T : List α) (k : Int) :
    Except Err Bool :=
  (ngramsRaw S T k).map fun raw => !raw.isEmpty

/-- Source function `find_near_matches_substitutions` (lines 7-35), the
dispatcher: validate, then route to the exact path, the ngram matcher, or the
linear matcher. -/
def find_near_matches_substitutions (S T : List α) (k : Int) :
    Except Err (List Match) :=
  if S.isEmpty then .error .emptySubsequence
  else if k < 0 then .error .negativeBudget
  else if k = 0 then
    .ok ((search_exact S T 0 (T.length : Int)).map fun (s : Nat) =>
      ⟨(s : Int), (s : Int) + S.length, 0⟩)
  else if 3 ≤ Int.fdiv (S.length : Int) (k + 1) then
    find_near_matches_substitutions_ngrams S T k
  else
    find_near_matches_substitutions_linear_programming S T k

/-! ### Brute-force reference (the spec's O(N·L) definition of validity) -/

/-- The true elementwise mismatch count between `S` and the window of `T`
starting at `w`. -/
def windowDist (S T : List α) (w : Nat) : Nat :=
  countMismatches (pySlice T w (w + S.length)) S

/-- A window start is valid when the window fits inside `T` and its mismatch
count is within the budget. -/
def ValidStart (S T : List α) (k : Int) (w : Nat) : Prop :=
  w + S.length ≤ T.length ∧ (windowDist S T w : Int) ≤ k

instance (S T : List α) (k : Int) (w : Nat) : Decidable (ValidStart S T k w) :=
  inferInstanceAs (Decidable (And _ _))

/-- The canonical `Match` for window start `w`. -/
def canonMatch (S T : List α) (w : Nat) : Match :=
  ⟨(w : Int), (w : Int) + S.length, (windowDist S T w : Int)⟩

/-- The brute-force reference list: one canonical `Match` per valid window
start, in increasing order of start. -/
def validMatches (S T : List α) (k : Int) : List Match :=
  (List.range (T.length + 1 - S.length)).filterMap fun w =>
    if (windowDist S T w : Int) ≤ k then some (canonMatch S T w) else none

/-- The spec's per-`Match` invariants: `0 <= start <= end <= len(T)`,
`end - start == len(S)`, `dist` is the true mismatch count of the window at
`start`, and `dist <= K`. -/
def MatchInvariant (S T : List α) (k : Int) (m : Match) : Prop :=
  0 ≤ m.start ∧ m.start ≤ m.stop ∧ m.stop ≤ (T.length : Int) ∧
    m.stop - m.start = (S.length : Int) ∧
    (∃ w : Nat, (w : Int) = m.start ∧ m.dist = (windowDist S T w : Int)) ∧
    m.dist ≤ k

/-! ### Basic lemmas about slices and mismatch counts -/

theorem pySlice_getElem? (l : List α) (a b j : Nat) :
    (pySlice l a b)[j]? = if a + j < b then l[a + j]? else none := by
  simp [pySlice, List.getElem?_drop, List.getElem?_take]

theorem pySlice_length (l : List α) (a b : Nat) :
    (pySlice l a b).length = min b l.length - a := by
  simp [pySlice]

theorem countMismatches_cons (x y : α) (xs ys : List α) :
    countMismatches (x :: xs) (y :: ys) =
      (if x = y then 0 else 1) + countMismatches xs ys := by
  by_cases h : x = y <;>
    simp [countMismatches, List.zip_cons_cons, List.filter_cons, h, Nat.add_comm]

theorem countMismatches_self (xs : List α) : countMismatches xs xs = 0 := by
  induction xs with
  | nil => rfl
  | cons x xs ih => rw [countMismatches_cons]; simp [ih]

theorem countMismatches_le (xs ys : List α) :
    countMismatches xs ys ≤ min xs.length ys.length := by
  calc countMismatches xs ys ≤ (xs.zip ys).length := List.length_filter_le _ _
  _ = min xs.length ys.length := List.length_zip _ _

theorem countMismatches_append (xs₁ xs₂ ys₁ ys₂ : List α)
    (h : xs₁.length = ys₁.length) :
    countMismatches (xs₁ ++ xs₂) (ys₁ ++ ys₂) =
      countMismatches xs₁ ys₁ + countMismatches xs₂ ys₂ := by
  unfold countMismatches
  rw [List.zip_append h, List.filter_append, List.length_append]

theorem eq_iff_countMismatches_eq_zero (xs ys : List α)
    (h : xs.length = ys.length) :
    xs = ys ↔ countMismatches xs ys = 0 := by
  induction xs generalizing ys with
  | nil => cases ys with
    | nil => simp [countMismatches]
    | cons y ys => simp at h
  | cons x xs ih =>
    cases ys with
    | nil => simp at h
    | cons y ys =>
      rw [countMismatches_cons]
      by_cases hxy : x = y
      · simp only [List.length_cons, Nat.add_right_cancel_iff] at h
        simp [hxy, ih ys h]
      · simp [hxy]

theorem countMismatches_eq_range (xs ys : List α) :
    countMismatches xs ys =
      ((List.range (min xs.length ys.length)).filter fun j =>
        decide (¬ xs[j]? = ys[j]?)).length := by
  induction xs generalizing ys with
  | nil => simp [countMismatches]
  | cons x xs ih =>
    cases ys with
    | nil => simp [countMismatches]
    | cons y ys =>
      rw [countMismatches_cons, ih ys]
      simp only [List.length_cons, Nat.succ_min_succ, List.range_succ_eq_map,
        List.filter_cons, List.filter_map, List.length_map]
      by_cases hxy : x = y
      · simp [hxy, Function.comp_def]
      · simp [hxy, Function.comp_def, Nat.add_comm]

/-! ### Prefix match counts and the window distance -/

/-- Number of positions `j < p` at which `S` agrees with the window of `T`
starting at `w` (the quantity a ring counter accumulates). -/
def prefMatchCount (S T : List α) (w p : Nat) : Nat :=
  ((List.range p).filter fun j => decide (S[j]? = T[w + j]?)).length

theorem prefMatchCount_zero (S T : List α) (w : Nat) :
    prefMatchCount S T w 0 = 0 := rfl

theorem prefMatchCount_succ (S T : List α) (w p : Nat) :
    prefMatchCount S T w (p + 1) =
      prefMatchCount S T w p + (if S[p]? = T[w + p]? then 1 else 0) := by
  unfold prefMatchCount
  rw [List.range_succ, List.filter_append, List.length_append]
  by_cases h : S[p]? = T[w + p]? <;> simp [h]

theorem prefMatchCount_le (S T : List α) (w p : Nat) :
    prefMatchCount S T w p ≤ p := by
  calc prefMatchCount S T w p ≤ (List.range p).length := List.length_filter_le _ _
  _ = p := List.length_range p

theorem windowDist_eq_range (S T : List α) (w : Nat)
    (h : w + S.length ≤ T.length) :
    windowDist S T w =
      ((List.range S.length).filter fun j =>
        decide (¬ T[w + j]? = S[j]?)).length := by
  rw [windowDist, countMismatches_eq_range]
  have hlen : (pySlice T w (w + S.length)).length = S.length := by
    rw [pySlice_length]; omega
  rw [hlen, Nat.min_self]
  congr 1
  apply List.filter_congr
  intro j hj
  rw [List.mem_range] at hj
  rw [pySlice_getElem?, if_pos (by omega)]

theorem windowDist_add_prefMatchCount (S T : List α) (w : Nat)
    (h : w + S.length ≤ T.length) :
    windowDist S T w + prefMatchCount S T w S.length = S.length := by
  rw [windowDist_eq_range S T w h]
  have hpref : prefMatchCount S T w S.length =
      ((List.range S.length).filter fun j => decide (T[w + j]? = S[j]?)).length := by
    unfold prefMatchCount
    congr 1
    apply List.filter_congr
    intro j _
    simp [eq_comm]
  rw [hpref]
  have := @List.length_eq_length_filter_add Nat (List.range S.length)
    (fun j => decide (T[w + j]? = S[j]?))
  have hnot : ((List.range S.length).filter fun j =>
      decide (¬ T[w + j]? = S[j]?)) =
      ((List.range S.length).filter fun j => !decide (T[w + j]? = S[j]?)) := by
    apply List.filter_congr
    intro j _
    simp
  rw [hnot]
  rw [List.length_range] at this
  omega

theorem windowDist_le (S T : List α) (w : Nat) :
    windowDist S T w ≤ S.length :=
  le_trans (countMismatches_le _ _) (min_le_right _ _)

/-! ### The brute-force reference list -/

theorem canonMatch_start (S T : List α) (w : Nat) :
    (canonMatch S T w).start = (w : Int) := rfl

theorem mem_validMatches {S T : List α} {k : Int} (hS : S ≠ []) (m : Match) :
    m ∈ validMatches S T k ↔ ∃ w, ValidStart S T k w ∧ m = canonMatch S T w := by
  have hL : 1 ≤ S.length := List.length_pos.2 hS
  simp only [validMatches, List.mem_filterMap, List.mem_range, ValidStart]
  constructor
  · rintro ⟨w, hw, hm⟩
    by_cases hcond : (windowDist S T w : Int) ≤ k
    · rw [if_pos hcond] at hm
      exact ⟨w, ⟨by omega, hcond⟩, (Option.some.inj hm).symm⟩
    · rw [if_neg hcond] at hm; cases hm
  · rintro ⟨w, ⟨hwin, hdist⟩, rfl⟩
    exact ⟨w, by omega, by rw [if_pos hdist]⟩

theorem validMatches_pairwise (S T : List α) (k : Int) :
    (validMatches S T k).Pairwise (fun a b => a.start < b.start) := by
  rw [validMatches, List.pairwise_filterMap]
  apply List.Pairwise.imp ?_ (List.pairwise_lt_range _)
  intro a b hab x hx y hy
  by_cases h₁ : (windowDist S T a : Int) ≤ k
  · by_cases h₂ : (windowDist S T b : Int) ≤ k
    · simp only [if_pos h₁, Option.mem_def, Option.some.injEq] at hx
      simp only [if_pos h₂, Option.mem_def, Option.some.injEq] at hy
      rw [← hx, ← hy, canonMatch_start, canonMatch_start]
      exact_mod_cast hab
    · rw [if_neg h₂] at hy; cases hy
  · rw [if_neg h₁] at hx; cases hx

/-! ### The ring-counter state invariant -/

/-- Canonical contents of the candidates deque just before the element at
index `i` is processed: the counter at position `p` holds the match count of
the first `p` subsequence positions against the window starting at `i - p`. -/
def ringState (S T : List α) (i : Nat) : List Nat :=
  (List.range (min i (S.length - 1) + 1)).map fun p => prefMatchCount S T (i - p) p

theorem ringState_zero (S T : List α) : ringState S T 0 = [0] := by
  have h1 : List.range 1 = [0] := rfl
  simp [ringState, prefMatchCount, h1]

theorem bumpWarm_map_range (S : List α) (i : Nat) (c : α) (n : Nat)
    (g : Nat → Nat) :
    bumpWarm S i c ((List.range n).map g) =
      (List.range n).map fun p =>
        if p ≤ i ∧ S[p]? = some c then g p + 1 else g p := by
  unfold bumpWarm
  rw [List.length_map, List.length_range, List.zipWith_map_right,
    List.zipWith_same]

theorem bumpAll_map_range (S : List α) (c : α) (n : Nat) (g : Nat → Nat) :
    bumpAll S c ((List.range n).map g) =
      (List.range n).map fun p => if S[p]? = some c then g p + 1 else g p := by
  unfold bumpAll
  rw [List.length_map, List.length_range, List.zipWith_map_right,
    List.zipWith_same]

theorem bumpedWarm_eq (S T : List α) (i n : Nat) (c : α) (hn : n ≤ i + 1)
    (hc : T[i]? = some c) :
    ((List.range n).map fun p =>
        if p ≤ i ∧ S[p]? = some c then prefMatchCount S T (i - p) p + 1
        else prefMatchCount S T (i - p) p) =
      (List.range n).map fun p => prefMatchCount S T (i - p) (p + 1) := by
  apply List.map_congr_left
  intro p hp
  rw [List.mem_range] at hp
  have hpi : p ≤ i := by omega
  have hip : i - p + p = i := by omega
  rw [prefMatchCount_succ, hip, hc]
  by_cases hsp : S[p]? = some c <;> simp [hsp, hpi]

theorem bumpedAll_eq (S T : List α) (i n : Nat) (c : α) (hn : n ≤ i + 1)
    (hc : T[i]? = some c) :
    ((List.range n).map fun p =>
        if S[p]? = some c then prefMatchCount S T (i - p) p + 1
        else prefMatchCount S T (i - p) p) =
      (List.range n).map fun p => prefMatchCount S T (i - p) (p + 1) := by
  apply List.map_congr_left
  intro p hp
  rw [List.mem_range] at hp
  have hip : i - p + p = i := by omega
  rw [prefMatchCount_succ, hip, hc]
  by_cases hsp : S[p]? = some c <;> simp [hsp]

theorem cons_zero_shift (S T : List α) (i n : Nat) :
    (0 :: ((List.range n).map fun p => prefMatchCount S T (i - p) (p + 1))) =
      (List.range (n + 1)).map fun p => prefMatchCount S T (i + 1 - p) p := by
  apply List.ext_getElem?
  intro m
  cases m with
  | zero => simp [prefMatchCount]
  | succ m =>
    simp only [List.getElem?_cons_succ, List.getElem?_map]
    by_cases hm : m < n
    · rw [List.getElem?_range hm, List.getElem?_range (by omega : m + 1 < n + 1)]
      simp only [Option.map_some']
      have h2 : i + 1 - (m + 1) = i - m := by omega
      rw [h2]
    · have e1 : (List.range n)[m]? = none := by simp; omega
      have e2 : (List.range (n + 1))[m + 1]? = none := by simp; omega
      rw [e1, e2]
      rfl

theorem warmupStep_ringState (S T : List α) (i : Nat) (c : α)
    (hi : i + 1 ≤ S.length - 1) (_hiN : i < T.length) (hc : T[i]? = some c) :
    warmupStep S i c (ringState S T i) = ringState S T (i + 1) := by
  have hmin : min i (S.length - 1) = i := by omega
  have hmin' : min (i + 1) (S.length - 1) = i + 1 := by omega
  unfold warmupStep ringState
  rw [hmin, hmin', bumpWarm_map_range, bumpedWarm_eq S T i (i + 1) c (le_refl _) hc,
    cons_zero_shift]
  apply List.take_of_length_le
  rw [List.length_map, List.length_range]
  omega

theorem warmupLoop_ringState (S T : List α) :
    ∀ (xs : List α) (i : Nat), xs = (T.take (S.length - 1)).drop i →
      i ≤ min (S.length - 1) T.length →
      warmupLoop S i xs (ringState S T i) =
        ringState S T (min (S.length - 1) T.length) := by
  intro xs
  induction xs with
  | nil =>
    intro i hxs hi
    have hlen := congrArg List.length hxs
    simp only [List.length_nil, List.length_drop, List.length_take] at hlen
    have : i = min (S.length - 1) T.length := by omega
    rw [warmupLoop, this]
  | cons c rest ih =>
    intro i hxs hi
    have hlen := congrArg List.length hxs
    simp only [List.length_cons, List.length_drop, List.length_take] at hlen
    have hiM : i < min (S.length - 1) T.length := by omega
    have hc : T[i]? = some c := by
      have h0 : ((T.take (S.length - 1)).drop i)[0]? = some c := by
        rw [← hxs]; simp
      rw [List.getElem?_drop, List.getElem?_take] at h0
      rw [if_pos (by omega)] at h0
      simpa using h0
    have hrest : rest = (T.take (S.length - 1)).drop (i + 1) := by
      have := congrArg List.tail hxs
      simpa [List.tail_drop] using this
    rw [warmupLoop, warmupStep_ringState S T i c (by omega) (by omega) hc]
    exact ih (i + 1) hrest (by omega)

theorem steadyStep_ringState (S T : List α) (k : Int) (i : Nat) (c : α)
    (hS : S ≠ []) (hi : S.length - 1 ≤ i) (hiN : i < T.length)
    (hc : T[i]? = some c) :
    steadyStep S k i c (ringState S T i) =
      (ringState S T (i + 1),
        if (windowDist S T (i - (S.length - 1)) : Int) ≤ k then
          [canonMatch S T (i - (S.length - 1))] else []) := by
  have hL : 1 ≤ S.length := List.length_pos.2 hS
  have hmin : min i (S.length - 1) = S.length - 1 := by omega
  have hL1 : S.length - 1 + 1 = S.length := by omega
  have hring : ringState S T i =
      (List.range S.length).map fun p => prefMatchCount S T (i - p) p := by
    rw [ringState, hmin, hL1]
  have hbump : bumpAll S c (ringState S T i) =
      (List.range S.length).map fun p => prefMatchCount S T (i - p) (p + 1) := by
    rw [hring, bumpAll_map_range, bumpedAll_eq S T i S.length c (by omega) hc]
  have hsplit : List.range S.length =
      List.range (S.length - 1) ++ [S.length - 1] := by
    conv_lhs => rw [← hL1]
    exact List.range_succ _
  have hrot : rotateOne (bumpAll S c (ringState S T i)) =
      prefMatchCount S T (i - (S.length - 1)) S.length ::
        (List.range (S.length - 1)).map fun p =>
          prefMatchCount S T (i - p) (p + 1) := by
    rw [hbump, hsplit, List.map_append, List.map_singleton, rotateOne]
    rw [List.getLast?_concat, List.dropLast_concat, hL1]
  have hwin : i - (S.length - 1) + S.length ≤ T.length := by omega
  have hwd := windowDist_add_prefMatchCount S T (i - (S.length - 1)) hwin
  have hcast : (windowDist S T (i - (S.length - 1)) : Int) =
      (S.length : Int) - prefMatchCount S T (i - (S.length - 1)) S.length := by
    omega
  simp only [steadyStep]
  rw [hrot]
  simp only [List.headD_cons, List.set_cons_zero]
  rw [Prod.mk.injEq]
  constructor
  · rw [cons_zero_shift, hL1, ringState]
    have hmin2 : min (i + 1) (S.length - 1) = S.length - 1 := by omega
    rw [hmin2, hL1]
  · rw [← hcast]
    by_cases hcond : (windowDist S T (i - (S.length - 1)) : Int) ≤ k
    · rw [if_pos hcond, if_pos hcond]
      have hm : (⟨(i : Int) - ((S.length - 1 : Nat) : Int), (i : Int) + 1,
          (windowDist S T (i - (S.length - 1)) : Int)⟩ : Match) =
          canonMatch S T (i - (S.length - 1)) := by
        simp only [canonMatch, Match.mk.injEq]
        refine ⟨by omega, by omega, trivial⟩
      rw [hm]
    · rw [if_neg hcond, if_neg hcond]

theorem steadyLoop_ringState (S T : List α) (k : Int) (hS : S ≠ []) :
    ∀ (xs : List α) (i : Nat), S.length - 1 ≤ i → xs = T.drop i →
      steadyLoop S k i xs (ringState S T i) =
        (List.range' (i - (S.length - 1)) (T.length - i)).filterMap fun w =>
          if (windowDist S T w : Int) ≤ k then some (canonMatch S T w)
          else none := by
  intro xs
  induction xs with
  | nil =>
    intro i hi hxs
    have hlen := congrArg List.length hxs
    simp only [List.length_nil, List.length_drop] at hlen
    have h0 : T.length - i = 0 := by omega
    rw [steadyLoop, h0]
    rfl
  | cons c rest ih =>
    intro i hi hxs
    have hlen := congrArg List.length hxs
    simp only [List.length_cons, List.length_drop] at hlen
    have hiN : i < T.length := by omega
    have hc : T[i]? = some c := by
      have h0 : (T.drop i)[0]? = some c := by rw [← hxs]; simp
      rw [List.getElem?_drop] at h0
      simpa using h0
    have hrest : rest = T.drop (i + 1) := by
      have := congrArg List.tail hxs
      simpa [List.tail_drop] using this
    rw [steadyLoop, steadyStep_ringState S T k i c hS hi hiN hc]
    rw [ih (i + 1) (by omega) hrest]
    have hN : T.length - i = (T.length - (i + 1)) + 1 := by omega
    rw [hN, List.range'_succ, List.filterMap_cons]
    have harg : i - (S.length - 1) + 1 = i + 1 - (S.length - 1) := by omega
    by_cases hcond : (windowDist S T (i - (S.length - 1)) : Int) ≤ k
    · rw [if_pos hcond]
      simp only [if_pos hcond, harg]
      rfl
    · rw [if_neg hcond]
      simp only [if_neg hcond, harg]
      rfl

/-- The ring-counter matcher emits exactly the brute-force reference list. -/
theorem linearRun_eq_validMatches (S T : List α) (k : Int) (hS : S ≠ []) :
    linearRun S T k = validMatches S T k := by
  have hL : 1 ≤ S.length := List.length_pos.2 hS
  rw [linearRun]
  by_cases hN : T.length ≤ S.length - 1
  · have hdrop : T.drop (S.length - 1) = [] := List.drop_eq_nil_of_le hN
    have h0 : T.length + 1 - S.length = 0 := by omega
    rw [hdrop, validMatches, h0]
    rfl
  · have hwarm := warmupLoop_ringState S T (T.take (S.length - 1)) 0
      (List.drop_zero _).symm (by omega)
    have hmin : min (S.length - 1) T.length = S.length - 1 := by omega
    rw [← ringState_zero S T, hwarm, hmin]
    rw [steadyLoop_ringState S T k hS (T.drop (S.length - 1)) (S.length - 1)
      (le_refl _) rfl]
    have h1 : S.length - 1 - (S.length - 1) = 0 := by omega
    have h2 : T.length - (S.length - 1) = T.length + 1 - S.length := by omega
    rw [h1, h2, ← List.range_eq_range']
    rfl

/-! ### The ngram matcher: hit verification -/

theorem mem_search_exact (fragment sequence : List α) (sb eb : Int) (h : Nat) :
    h ∈ search_exact fragment sequence sb eb ↔
      h ≤ sequence.length ∧ sb ≤ (h : Int) ∧
        (h : Int) + fragment.length ≤ eb ∧
        pySlice sequence h (h + fragment.length) = fragment := by
  unfold search_exact
  rw [List.mem_filter, List.mem_range]
  simp only [Bool.and_eq_true, decide_eq_true_eq]
  constructor
  · rintro ⟨h1, ⟨h2, h3⟩, h4⟩
    exact ⟨by omega, h2, h3, h4⟩
  · rintro ⟨h1, h2, h3, h4⟩
    exact ⟨by omega, ⟨h2, h3⟩, h4⟩

theorem pySlice_split (l : List α) (a b c : Nat) (hab : a ≤ b) (hbc : b ≤ c)
    (hcl : c ≤ l.length) :
    pySlice l a c = pySlice l a b ++ pySlice l b c := by
  have htake : l.take c = l.take b ++ (l.take c).drop b := by
    conv_lhs => rw [← List.take_append_drop b (l.take c)]
    rw [List.take_take, min_eq_left hbc]
  have hlen : (l.take b).length = b := by
    rw [List.length_take]; omega
  calc pySlice l a c = (l.take c).drop a := rfl
  _ = (l.take b ++ (l.take c).drop b).drop a := by rw [← htake]
  _ = (l.take b).drop a ++ ((l.take c).drop b).drop (a - (l.take b).length) := by
      rw [List.drop_append_eq_append_drop]
  _ = pySlice l a b ++ pySlice l b c := by
      rw [hlen]
      have : a - b = 0 := by omega
      rw [this, List.drop_zero]
      rfl

theorem processHit_eq (S T : List α) (k : Int) (gLen gstart h : Nat)
    (hk : 0 ≤ k) (hgpos : 1 ≤ gLen) (hgend : gstart + gLen ≤ S.length)
    (hgs : gstart ≤ h)
    (hbound : (h : Int) + gLen ≤
      (T.length : Int) - ((S.length : Int) - (gstart + gLen)))
    (hfrag : pySlice T h (h + gLen) = pySlice S gstart (gstart + gLen)) :
    processHit S T k gLen gstart h =
      if (windowDist S T (h - gstart) : Int) ≤ k then
        some (canonMatch S T (h - gstart)) else none := by
  have hwL : (h - gstart) + S.length ≤ T.length := by omega
  have hhN : h + gLen ≤ T.length := by omega
  set w := h - gstart with hw
  set L := S.length with hLdef
  set gend := gstart + gLen with hgenddef
  have hwh : w + gstart = h := by omega
  -- decompositions of the subsequence and of the window
  have hSdec : S = S.take gstart ++ (pySlice S gstart gend ++ S.drop gend) := by
    conv_lhs => rw [← List.take_append_drop gend S]
    rw [← List.append_assoc]
    congr 1
    have : S.take gend = pySlice S 0 gend := by
      rw [pySlice, List.drop_zero]
    rw [this, pySlice_split S 0 gstart gend (by omega) (by omega) (by omega),
      pySlice, List.drop_zero]
  have hTdec : pySlice T w (w + L) =
      pySlice T w h ++ (pySlice T h (h + gLen) ++ pySlice T (h + gLen) (w + L)) := by
    rw [pySlice_split T w h (w + L) (by omega) (by omega) (by omega),
      pySlice_split T h (h + gLen) (w + L) (by omega) (by omega) (by omega)]
  -- part lengths
  have hlenA : (pySlice T w h).length = gstart := by
    rw [pySlice_length]; omega
  have hlenA' : (S.take gstart).length = gstart := by
    rw [List.length_take]; omega
  have hlenB : (pySlice T h (h + gLen)).length = gLen := by
    rw [pySlice_length]; omega
  have hlenB' : (pySlice S gstart gend).length = gLen := by
    rw [pySlice_length]; omega
  have hlenC : (pySlice T (h + gLen) (w + L)).length = L - gend := by
    rw [pySlice_length]; omega
  have hlenC' : (S.drop gend).length = L - gend := by
    rw [List.length_drop]
  -- the window distance splits into before + after (fragment is exact)
  have hsum : windowDist S T w =
      countMismatches (pySlice T w h) (S.take gstart) +
        countMismatches (pySlice T (h + gLen) (w + L)) (S.drop gend) := by
    rw [windowDist]
    conv_lhs => rw [hTdec, hSdec]
    rw [countMismatches_append _ _ _ _ (by rw [hlenA, hlenA']),
      countMismatches_append _ _ _ _ (by rw [hlenB, hlenB']),
      ← hfrag, countMismatches_self]
    omega
  set b := countMismatches (pySlice T w h) (S.take gstart) with hbdef
  set a := countMismatches (pySlice T (h + gLen) (w + L)) (S.drop gend) with hadef
  have hBefIff : (S.take gstart = pySlice T w h) ↔ b = 0 := by
    rw [eq_comm]
    exact eq_iff_countMismatches_eq_zero _ _ (by rw [hlenA, hlenA'])
  have hAftIff : (S.drop gend = pySlice T (h + gLen) (w + L)) ↔ a = 0 := by
    rw [eq_comm]
    exact eq_iff_countMismatches_eq_zero _ _ (by rw [hlenC, hlenC'])
  have hmatch : ∀ d : Nat, d = windowDist S T w →
      (⟨(h : Int) - gstart, (h : Int) - gstart + L, (d : Int)⟩ : Match) =
        canonMatch S T w := by
    intro d hd
    simp only [canonMatch, Match.mk.injEq]
    refine ⟨by omega, by omega, by omega⟩
  simp only [processHit]
  rw [← hw, ← hLdef, ← hgenddef, ← hbdef, ← hadef]
  by_cases hbe : List.take gstart S = pySlice T w h
  · simp only [if_pos hbe]
    have hb0 : b = 0 := hBefIff.1 hbe
    rw [if_neg (show ¬(¬List.take gstart S = pySlice T w h ∧
      k < ((0 : Nat) : Int)) from fun hcon => hcon.1 hbe)]
    by_cases haf : List.drop gend S = pySlice T (h + gLen) (w + L)
    · have ha0 : a = 0 := hAftIff.1 haf
      rw [if_pos haf, if_pos (show (windowDist S T w : Int) ≤ k by omega)]
      rw [hmatch 0 (by omega)]
    · have ha1 : 1 ≤ a := by
        rcases Nat.eq_zero_or_pos a with h0 | h1
        · exact absurd (hAftIff.2 h0) haf
        · exact h1
      rw [if_neg haf]
      by_cases hk0 : ((0 : Nat) : Int) = k
      · rw [if_pos hk0, if_neg (show ¬(windowDist S T w : Int) ≤ k by omega)]
      · rw [if_neg hk0]
        by_cases hak : k < ((0 + a : Nat) : Int)
        · rw [if_pos hak, if_neg (show ¬(windowDist S T w : Int) ≤ k by omega)]
        · rw [if_neg hak, if_pos (show (windowDist S T w : Int) ≤ k by omega)]
          rw [hmatch (0 + a) (by omega)]
  · simp only [if_neg hbe]
    have hb1 : 1 ≤ b := by
      rcases Nat.eq_zero_or_pos b with h0 | h1
      · exact absurd (hBefIff.2 h0) hbe
      · exact h1
    by_cases hkb : k < (b : Int)
    · rw [if_pos ⟨hbe, hkb⟩,
        if_neg (show ¬(windowDist S T w : Int) ≤ k by omega)]
    · rw [if_neg (show ¬(¬List.take gstart S = pySlice T w h ∧ k < (b : Int))
        from fun hcon => hkb hcon.2)]
      by_cases haf : List.drop gend S = pySlice T (h + gLen) (w + L)
      · have ha0 : a = 0 := hAftIff.1 haf
        rw [if_pos haf, if_pos (show (windowDist S T w : Int) ≤ k by omega)]
        rw [hmatch b (by omega)]
      · have ha1 : 1 ≤ a := by
          rcases Nat.eq_zero_or_pos a with h0 | h1
          · exact absurd (hAftIff.2 h0) haf
          · exact h1
        rw [if_neg haf]
        by_cases hbk : (b : Int) = k
        · rw [if_pos hbk,
            if_neg (show ¬(windowDist S T w : Int) ≤ k by omega)]
        · rw [if_neg hbk]
          by_cases hak : k < ((b + a : Nat) : Int)
          · rw [if_pos hak,
              if_neg (show ¬(windowDist S T w : Int) ≤ k by omega)]
          · rw [if_neg hak,
              if_pos (show (windowDist S T w : Int) ≤ k by omega)]
            rw [hmatch (b + a) (by omega)]

/-! ### The ngram matcher: pigeonhole completeness -/

theorem chunk_filter_sum (p : Nat → Bool) (g f : Nat) :
    ((List.range' 0 (f * g)).filter p).length =
      ∑ m ∈ Finset.range f, ((List.range' (m * g) g).filter p).length := by
  induction f with
  | zero => simp
  | succ f ih =>
    have happ := List.range'_append 0 (f * g) g 1
    simp only [one_mul, Nat.zero_add] at happ
    have hmul : (f + 1) * g = g + f * g := by ring
    rw [hmul, ← happ, List.filter_append, List.length_append, ih,
      Finset.sum_range_succ]

theorem filter_range'_prefix_le (p : Nat → Bool) (a L : Nat) (h : a ≤ L) :
    ((List.range' 0 a).filter p).length ≤
      ((List.range L).filter p).length := by
  rw [List.range_eq_range']
  have happ := List.range'_append 0 a (L - a) 1
  simp only [one_mul, Nat.zero_add] at happ
  have hL : L = (L - a) + a := by omega
  rw [hL, ← happ, List.filter_append, List.length_append]
  omega

theorem chunk_eq_countMismatches (S T : List α) (w s g : Nat)
    (hsg : s + g ≤ S.length) (hwin : w + S.length ≤ T.length) :
    ((List.range' s g).filter fun j => decide (¬ T[w + j]? = S[j]?)).length =
      countMismatches (pySlice T (w + s) (w + s + g)) (pySlice S s (s + g)) := by
  rw [countMismatches_eq_range]
  have hlT : (pySlice T (w + s) (w + s + g)).length = g := by
    rw [pySlice_length]; omega
  have hlS : (pySlice S s (s + g)).length = g := by
    rw [pySlice_length]; omega
  rw [hlT, hlS, Nat.min_self, List.range'_eq_map_range, List.filter_map,
    List.length_map]
  congr 1
  apply List.filter_congr
  intro j hj
  rw [List.mem_range] at hj
  simp only [Function.comp_apply]
  rw [pySlice_getElem?, pySlice_getElem?, if_pos (by omega), if_pos (by omega)]
  have h1 : w + s + j = w + (s + j) := by omega
  rw [h1]

theorem exists_exact_fragment (S T : List α) (kN g w : Nat)
    (hg : 1 ≤ g) (hkg : (kN + 1) * g ≤ S.length)
    (hwin : w + S.length ≤ T.length)
    (hdist : windowDist S T w ≤ kN) :
    ∃ m, m ≤ kN ∧
      pySlice T (w + m * g) (w + m * g + g) = pySlice S (m * g) (m * g + g) := by
  by_contra hcon
  push_neg at hcon
  have hone : ∀ m, m ≤ kN →
      1 ≤ ((List.range' (m * g) g).filter fun j =>
        decide (¬ T[w + j]? = S[j]?)).length := by
    intro m hm
    have hmono : (m + 1) * g ≤ (kN + 1) * g :=
      Nat.mul_le_mul_right _ (by omega)
    have hsg : m * g + g ≤ S.length := by
      calc m * g + g = (m + 1) * g := by ring
      _ ≤ (kN + 1) * g := hmono
      _ ≤ S.length := hkg
    rw [chunk_eq_countMismatches S T w (m * g) g hsg hwin]
    rcases Nat.eq_zero_or_pos
      (countMismatches (pySlice T (w + m * g) (w + m * g + g))
        (pySlice S (m * g) (m * g + g))) with h0 | h1
    · exfalso
      apply hcon m hm
      refine (eq_iff_countMismatches_eq_zero _ _ ?_).2 h0
      rw [pySlice_length, pySlice_length]
      omega
    · exact h1
  have hsum : ∑ m ∈ Finset.range (kN + 1),
      ((List.range' (m * g) g).filter fun j =>
        decide (¬ T[w + j]? = S[j]?)).length ≤ windowDist S T w := by
    rw [← chunk_filter_sum, windowDist_eq_range S T w hwin]
    exact filter_range'_prefix_le _ _ _ hkg
  have hge : kN + 1 ≤ ∑ m ∈ Finset.range (kN + 1),
      ((List.range' (m * g) g).filter fun j =>
        decide (¬ T[w + j]? = S[j]?)).length := by
    calc kN + 1 = ∑ _m ∈ Finset.range (kN + 1), 1 := by simp
    _ ≤ _ := Finset.sum_le_sum fun m hm =>
        hone m (by rw [Finset.mem_range] at hm; omega)
  omega

/-! ### The ngram matcher: raw enumeration characterization -/

theorem fragmentStarts_toNat (S : List α) (gN : Nat) (hg : 1 ≤ gN) :
    (fragmentStarts S (gN : Int)).map Int.toNat =
      (List.range (S.length / gN)).map fun m => m * gN := by
  simp only [fragmentStarts, pyRange]
  rw [if_neg (by omega), if_pos (by omega)]
  have h1 : ((S.length : Int) - gN + 1 - 0 + gN - 1) = (S.length : Int) := by
    ring
  rw [h1]
  have h2 : ((S.length : Int).fdiv (gN : Int)).toNat = S.length / gN := by
    rw [Int.fdiv_eq_tdiv (by positivity) (by positivity), ← Int.ofNat_tdiv,
      Int.toNat_natCast]
  rw [h2, List.map_map]
  apply List.map_congr_left
  intro m hm
  simp only [Function.comp_apply]
  have h3 : (0 : Int) + (gN : Int) * (m : Int) = ((m * gN : Nat) : Int) := by
    push_cast; ring
  rw [h3, Int.toNat_natCast]

theorem mem_ngramsLoop (S T : List α) (k : Int) (gN : Nat) (hk : 0 ≤ k)
    (hg1 : 1 ≤ gN) (hgk : (k.toNat + 1) * gN ≤ S.length) (m : Match) :
    m ∈ ngramsLoop S T k (gN : Int) ↔
      ∃ w, ValidStart S T k w ∧ m = canonMatch S T w := by
  unfold ngramsLoop
  simp only [Int.toNat_natCast]
  rw [List.mem_flatMap]
  constructor
  · rintro ⟨gstart, hgs, hm⟩
    rw [fragmentStarts_toNat S gN hg1, List.mem_map] at hgs
    obtain ⟨mm, hmm, rfl⟩ := hgs
    rw [List.mem_range] at hmm
    set s := mm * gN with hs
    have hfit : s + gN ≤ S.length := by
      have h1 : mm + 1 ≤ S.length / gN := hmm
      have h2 := Nat.mul_le_mul_right gN h1
      have h3 : S.length / gN * gN ≤ S.length := Nat.div_mul_le_self _ _
      calc s + gN = (mm + 1) * gN := by rw [hs]; ring
      _ ≤ S.length / gN * gN := h2
      _ ≤ S.length := h3
    rw [List.mem_filterMap] at hm
    obtain ⟨hh, hsearch, hph⟩ := hm
    rw [mem_search_exact] at hsearch
    obtain ⟨hh1, hh2, hh3, hh4⟩ := hsearch
    have hfraglen : (pySlice S s (s + gN)).length = gN := by
      rw [pySlice_length]; omega
    rw [hfraglen] at hh3 hh4
    have hsh : s ≤ hh := by omega
    rw [processHit_eq S T k gN s hh hk hg1 hfit hsh (by omega) hh4] at hph
    by_cases hcond : (windowDist S T (hh - s) : Int) ≤ k
    · rw [if_pos hcond] at hph
      refine ⟨hh - s, ⟨?_, hcond⟩, (Option.some.inj hph).symm⟩
      omega
    · rw [if_neg hcond] at hph
      cases hph
  · rintro ⟨w, ⟨hwin, hdist⟩, rfl⟩
    have hdistN : windowDist S T w ≤ k.toNat := by omega
    obtain ⟨mm, hmmk, hfrag⟩ :=
      exists_exact_fragment S T k.toNat gN w hg1 hgk hwin hdistN
    set s := mm * gN with hs
    have hfit : s + gN ≤ S.length := by
      have hmono : (mm + 1) * gN ≤ (k.toNat + 1) * gN :=
        Nat.mul_le_mul_right _ (by omega)
      calc s + gN = (mm + 1) * gN := by rw [hs]; ring
      _ ≤ (k.toNat + 1) * gN := hmono
      _ ≤ S.length := hgk
    refine ⟨s, ?_, ?_⟩
    · rw [fragmentStarts_toNat S gN hg1, List.mem_map]
      refine ⟨mm, ?_, rfl⟩
      rw [List.mem_range]
      have hdiv : k.toNat + 1 ≤ S.length / gN :=
        (Nat.le_div_iff_mul_le (by omega)).2 hgk
      omega
    · rw [List.mem_filterMap]
      have hfraglen : (pySlice S s (s + gN)).length = gN := by
        rw [pySlice_length]; omega
      refine ⟨w + s, ?_, ?_⟩
      · rw [mem_search_exact, hfraglen]
        refine ⟨by omega, by omega, by omega, hfrag⟩
      · rw [processHit_eq S T k gN s (w + s) hk hg1 hfit (by omega)
          (by omega) hfrag]
        have hws : w + s - s = w := by omega
        rw [hws, if_pos hdist]

/-- Under valid ngram inputs the raw generator succeeds with the loop over
fragment length `len(S) / (K+1)`. -/
theorem ngramsRaw_ok (S T : List α) (k : Int) (hk : 0 ≤ k)
    (hkL : k + 1 ≤ (S.length : Int)) :
    ngramsRaw S T k =
      .ok (ngramsLoop S T k ((S.length / (k.toNat + 1) : Nat) : Int)) := by
  obtain ⟨kN, rfl⟩ : ∃ kN : Nat, k = (kN : Int) :=
    ⟨k.toNat, (Int.toNat_of_nonneg hk).symm⟩
  simp only [Int.toNat_natCast]
  have hfd : (S.length : Int).fdiv ((kN : Int) + 1) =
      ((S.length / (kN + 1) : Nat) : Int) := by
    have h1 : ((kN : Int) + 1) = ((kN + 1 : Nat) : Int) := by push_cast; ring
    rw [h1, Int.fdiv_eq_tdiv (by positivity) (by positivity),
      ← Int.ofNat_tdiv]
  have hg1 : 1 ≤ S.length / (kN + 1) :=
    (Nat.le_div_iff_mul_le (by omega)).2 (by omega : 1 * (kN + 1) ≤ S.length)
  simp only [ngramsRaw]
  rw [if_neg (by omega : ¬ (kN : Int) + 1 = 0)]
  simp only [hfd]
  rw [if_neg (show ¬ ((S.length / (kN + 1) : Nat) : Int) = 0 from by
    exact_mod_cast (by omega : ¬ S.length / (kN + 1) = 0))]

/-! ### Deduplication and sorting -/

theorem dedupFirstByStart_subset :
    ∀ (l : List Match) (seen : List Int) (m : Match),
      m ∈ dedupFirstByStart l seen → m ∈ l := by
  intro l
  induction l with
  | nil => intro seen m hm; cases hm
  | cons x rest ih =>
    intro seen m hm
    rw [dedupFirstByStart] at hm
    by_cases hx : x.start ∈ seen
    · rw [if_pos hx] at hm
      exact List.mem_cons_of_mem _ (ih _ _ hm)
    · rw [if_neg hx] at hm
      rcases List.mem_cons.1 hm with rfl | hm'
      · exact List.mem_cons_self _ _
      · exact List.mem_cons_of_mem _ (ih _ _ hm')

theorem dedupFirstByStart_nodup_and_fresh :
    ∀ (l : List Match) (seen : List Int),
      ((dedupFirstByStart l seen).map Match.start).Nodup ∧
        ∀ m ∈ dedupFirstByStart l seen, m.start ∉ seen := by
  intro l
  induction l with
  | nil => intro seen; exact ⟨List.nodup_nil, by intro m hm; cases hm⟩
  | cons x rest ih =>
    intro seen
    rw [dedupFirstByStart]
    by_cases hx : x.start ∈ seen
    · rw [if_pos hx]
      exact ih seen
    · rw [if_neg hx]
      obtain ⟨ihn, ihf⟩ := ih (x.start :: seen)
      constructor
      · rw [List.map_cons, List.nodup_cons]
        refine ⟨?_, ihn⟩
        rw [List.mem_map]
        rintro ⟨m, hm, hms⟩
        exact ihf m hm (by rw [hms]; exact List.mem_cons_self _ _)
      · intro m hm
        rcases List.mem_cons.1 hm with rfl | hm'
        · exact hx
        · intro hmem
          exact ihf m hm' (List.mem_cons_of_mem _ hmem)

theorem dedupFirstByStart_complete :
    ∀ (l : List Match) (seen : List Int) (m : Match),
      m ∈ l → m.start ∉ seen →
      ∃ m', m' ∈ dedupFirstByStart l seen ∧ m'.start = m.start := by
  intro l
  induction l with
  | nil => intro seen m hm; cases hm
  | cons x rest ih =>
    intro seen m hm hns
    rw [dedupFirstByStart]
    rcases List.mem_cons.1 hm with rfl | hm'
    · rw [if_neg hns]
      exact ⟨m, List.mem_cons_self _ _, rfl⟩
    · by_cases hx : x.start ∈ seen
      · rw [if_pos hx]
        exact ih seen m hm' hns
      · rw [if_neg hx]
        by_cases hms : m.start = x.start
        · exact ⟨x, List.mem_cons_self _ _, hms.symm⟩
        · obtain ⟨m', hm'mem, hm's⟩ := ih (x.start :: seen) m hm'
            (by simp [hms, hns])
          exact ⟨m', List.mem_cons_of_mem _ hm'mem, hm's⟩

/-- Sorting the deduplicated raw ngram output yields exactly the brute-force
reference list, provided the raw output's members are exactly the canonical
matches of the valid windows. -/
theorem dedup_sort_eq_validMatches (S T : List α) (k : Int)
    (raw : List Match) (hS : S ≠ [])
    (hmem : ∀ m, m ∈ raw ↔ ∃ w, ValidStart S T k w ∧ m = canonMatch S T w) :
    (dedupFirstByStart raw []).mergeSort
        (fun a b => decide (a.start ≤ b.start)) = validMatches S T k := by
  set d := dedupFirstByStart raw [] with hd
  set sorted := d.mergeSort (fun a b => decide (a.start ≤ b.start)) with hsorted
  have hperm_sd : sorted.Perm d := List.mergeSort_perm d _
  obtain ⟨hdnodup, _⟩ := dedupFirstByStart_nodup_and_fresh raw []
  rw [← hd] at hdnodup
  -- member sets of d and of validMatches coincide
  have hmem_d : ∀ m, m ∈ d ↔ m ∈ validMatches S T k := by
    intro m
    rw [mem_validMatches hS]
    constructor
    · intro hmd
      exact (hmem m).1 (dedupFirstByStart_subset raw [] m hmd)
    · rintro ⟨w, hw, rfl⟩
      have hraw : canonMatch S T w ∈ raw := (hmem _).2 ⟨w, hw, rfl⟩
      obtain ⟨m', hm'd, hm's⟩ :=
        dedupFirstByStart_complete raw [] _ hraw (by simp)
      obtain ⟨w', hw', hm'eq⟩ := (hmem m').1 (dedupFirstByStart_subset raw [] m' hm'd)
      have hww : w' = w := by
        have := hm's
        rw [hm'eq] at this
        simp only [canonMatch_start] at this
        exact_mod_cast this
      rw [← hd] at hm'd
      rw [hm'eq, hww] at hm'd
      exact hm'd
  have hd_nodup : d.Nodup := List.Nodup.of_map _ hdnodup
  have hvalid_pair := validMatches_pairwise S T k
  have hvalid_nodup : (validMatches S T k).Nodup := by
    refine List.Pairwise.imp ?_ hvalid_pair
    intro a b hab
    intro heq
    rw [heq] at hab
    omega
  have hperm_dv : d.Perm (validMatches S T k) :=
    (List.perm_ext_iff_of_nodup hd_nodup hvalid_nodup).2 hmem_d
  have hperm : sorted.Perm (validMatches S T k) := hperm_sd.trans hperm_dv
  -- sortedness of both sides under the strict start order
  have hsorted_le : sorted.Pairwise (fun a b => a.start ≤ b.start) := by
    have := @List.sorted_mergeSort Match
      (fun a b : Match => decide (a.start ≤ b.start))
      (fun a b c hab hbc => by
        simp only [decide_eq_true_eq] at *
        omega)
      (fun a b => by
        simp only [Bool.or_eq_true, decide_eq_true_eq]
        omega)
      d
    rw [← hsorted] at this
    refine List.Pairwise.imp ?_ this
    intro a b hab
    simpa using hab
  have hsorted_ne : sorted.Pairwise (fun a b => a.start ≠ b.start) := by
    have hmapnodup : (sorted.map Match.start).Nodup :=
      ((hperm_sd.map Match.start).nodup_iff).2 hdnodup
    rw [List.Nodup, List.pairwise_map] at hmapnodup
    exact hmapnodup
  have hsorted_lt : sorted.Pairwise (fun a b => a.start < b.start) := by
    refine List.Pairwise.imp ?_ (hsorted_le.and hsorted_ne)
    rintro a b ⟨h1, h2⟩
    omega
  haveI : IsAntisymm Match (fun a b => a.start < b.start) :=
    ⟨fun a b h1 h2 => absurd h1 (by omega)⟩
  exact List.eq_of_perm_of_sorted hperm hsorted_lt hvalid_pair

/-! ### Entry-point characterizations -/

theorem ngramsLoop_mem_default (S T : List α) (k : Int) (hk : 0 ≤ k)
    (hkL : k + 1 ≤ (S.length : Int)) (m : Match) :
    m ∈ ngramsLoop S T k ((S.length / (k.toNat + 1) : Nat) : Int) ↔
      ∃ w, ValidStart S T k w ∧ m = canonMatch S T w := by
  apply mem_ngramsLoop S T k _ hk
  · exact (Nat.le_div_iff_mul_le (by omega)).2
      (by omega : 1 * (k.toNat + 1) ≤ S.length)
  · calc (k.toNat + 1) * (S.length / (k.toNat + 1)) =
        S.length / (k.toNat + 1) * (k.toNat + 1) := by ring
    _ ≤ S.length := Nat.div_mul_le_self _ _

/-- The public ngram entry point returns exactly the brute-force reference
list when the inputs validate. -/
theorem find_ngrams_eq (S T : List α) (k : Int) (hS : S ≠ []) (hk : 0 ≤ k)
    (hkL : k + 1 ≤ (S.length : Int)) :
    find_near_matches_substitutions_ngrams S T k =
      .ok (validMatches S T k) := by
  rw [find_near_matches_substitutions_ngrams, ngramsRaw_ok S T k hk hkL]
  simp only [Except.map]
  congr 1
  exact dedup_sort_eq_validMatches S T k _ hS
    (ngramsLoop_mem_default S T k hk hkL)

theorem ngramsLoop_ne_nil_iff (S T : List α) (k : Int) (hk : 0 ≤ k)
    (hkL : k + 1 ≤ (S.length : Int)) :
    ngramsLoop S T k ((S.length / (k.toNat + 1) : Nat) : Int) ≠ [] ↔
      ∃ w, ValidStart S T k w := by
  constructor
  · intro h
    obtain ⟨m, hm⟩ := List.exists_mem_of_ne_nil _ h
    obtain ⟨w, hw, _⟩ := (ngramsLoop_mem_default S T k hk hkL m).1 hm
    exact ⟨w, hw⟩
  · rintro ⟨w, hw⟩ hnil
    have hmm := (ngramsLoop_mem_default S T k hk hkL (canonMatch S T w)).2
      ⟨w, hw, rfl⟩
    rw [hnil] at hmm
    cases hmm

/-- The existence probe succeeds and answers whether a valid window exists. -/
theorem has_ngrams_eq (S T : List α) (k : Int) (hk : 0 ≤ k)
    (hkL : k + 1 ≤ (S.length : Int)) :
    ∃ b : Bool, has_near_match_substitutions_ngrams S T k = .ok b ∧
      (b = true ↔ ∃ w, ValidStart S T k w) := by
  refine ⟨!(ngramsLoop S T k
      ((S.length / (k.toNat + 1) : Nat) : Int)).isEmpty, ?_, ?_⟩
  · rw [has_near_match_substitutions_ngrams, ngramsRaw_ok S T k hk hkL]
    rfl
  · rw [← ngramsLoop_ne_nil_iff S T k hk hkL]
    simp [List.isEmpty_iff]

theorem map_filter_eq_filterMap {β : Type} (p : Nat → Bool) (f : Nat → β) :
    ∀ l : List Nat, (l.filter p).map f =
      l.filterMap fun a => if p a then some (f a) else none := by
  intro l
  induction l with
  | nil => rfl
  | cons x xs ih =>
    cases hpx : p x
    · simp [List.filter_cons, List.filterMap_cons, hpx, ih]
    · simp [List.filter_cons, List.filterMap_cons, hpx, ih]

/-- The zero-substitution exact path of the dispatcher returns exactly the
brute-force reference list for budget 0. -/
theorem exact_path_eq (S T : List α) (hS : S ≠ []) :
    ((search_exact S T 0 (T.length : Int)).map fun (s : Nat) =>
      (⟨(s : Int), (s : Int) + S.length, 0⟩ : Match)) = validMatches S T 0 := by
  have hL : 1 ≤ S.length := List.length_pos.2 hS
  rw [search_exact, map_filter_eq_filterMap]
  have hsplit : List.range (T.length + 1) =
      List.range (T.length + 1 - S.length) ++
        List.range' (T.length + 1 - S.length)
          (T.length + 1 - (T.length + 1 - S.length)) := by
    have happ := List.range'_append 0 (T.length + 1 - S.length)
      (T.length + 1 - (T.length + 1 - S.length)) 1
    simp only [one_mul, Nat.zero_add] at happ
    rw [List.range_eq_range']
    have hba : T.length + 1 = T.length + 1 - (T.length + 1 - S.length) +
        (T.length + 1 - S.length) := by omega
    conv_lhs => rw [hba, ← happ]
    rw [← List.range_eq_range']
  rw [hsplit, List.filterMap_append]
  have htail : (List.range' (T.length + 1 - S.length)
      (T.length + 1 - (T.length + 1 - S.length))).filterMap
        (fun (a : Nat) => if (decide ((0 : Int) ≤ (a : Int)) &&
            decide ((a : Int) + (S.length : Int) ≤ (T.length : Int)) &&
            decide (pySlice T a (a + S.length) = S)) then
          some (⟨(a : Int), (a : Int) + (S.length : Int), 0⟩ : Match)
          else none) = [] := by
    rw [List.filterMap_eq_nil_iff]
    intro a ha
    rw [List.mem_range'_1] at ha
    rw [if_neg]
    simp only [Bool.and_eq_true, decide_eq_true_eq]
    intro hcon
    have := hcon.1.2
    omega
  rw [htail, List.append_nil, validMatches]
  apply List.filterMap_congr
  intro w hw
  rw [List.mem_range] at hw
  have hwin : w + S.length ≤ T.length := by omega
  have hlen : (pySlice T w (w + S.length)).length = S.length := by
    rw [pySlice_length]; omega
  by_cases hcond : pySlice T w (w + S.length) = S
  · have hdist : windowDist S T w = 0 := by
      rw [windowDist, hcond, countMismatches_self]
    rw [if_pos (by
      simp only [Bool.and_eq_true, decide_eq_true_eq]
      exact ⟨⟨by omega, by omega⟩, hcond⟩)]
    rw [if_pos (by omega : (windowDist S T w : Int) ≤ 0)]
    simp [canonMatch, hdist]
  · have hdist : ¬ windowDist S T w = 0 := by
      intro h0
      exact hcond ((eq_iff_countMismatches_eq_zero _ _ hlen).2 h0)
    rw [if_neg (by
      simp only [Bool.and_eq_true, decide_eq_true_eq]
      intro hcon
      exact hcond hcon.2)]
    rw [if_neg (by omega : ¬ (windowDist S T w : Int) ≤ 0)]

/-- The linear entry point returns exactly the brute-force reference list
whenever the subsequence is non-empty (any budget, even negative). -/
theorem find_linear_eq (S T : List α) (k : Int) (hS : S ≠ []) :
    find_near_matches_substitutions_linear_programming S T k =
      .ok (validMatches S T k) := by
  rw [find_near_matches_substitutions_linear_programming,
    if_neg (by simp [hS] : ¬ S.isEmpty = true),
    linearRun_eq_validMatches S T k hS]

/-- The dispatcher returns exactly the brute-force reference list for every
valid input, whichever matcher it selects. -/
theorem dispatcher_eq (S T : List α) (k : Int) (hS : S ≠ []) (hk : 0 ≤ k) :
    find_near_matches_substitutions S T k = .ok (validMatches S T k) := by
  have hL : 1 ≤ S.length := List.length_pos.2 hS
  rw [find_near_matches_substitutions]
  rw [if_neg (by simp [hS] : ¬ S.isEmpty = true)]
  rw [if_neg (by omega : ¬ k < 0)]
  by_cases hk0 : k = 0
  · subst hk0
    rw [if_pos rfl, exact_path_eq S T hS]
  · rw [if_neg hk0]
    obtain ⟨kN, rfl⟩ : ∃ kN : Nat, k = (kN : Int) :=
      ⟨k.toNat, (Int.toNat_of_nonneg hk).symm⟩
    by_cases hng : 3 ≤ (S.length : Int).fdiv ((kN : Int) + 1)
    · rw [if_pos hng]
      apply find_ngrams_eq S T _ hS hk
      have hfd : (S.length : Int).fdiv ((kN : Int) + 1) =
          ((S.length / (kN + 1) : Nat) : Int) := by
        have h1 : ((kN : Int) + 1) = ((kN + 1 : Nat) : Int) := by
          push_cast; ring
        rw [h1, Int.fdiv_eq_tdiv (by positivity) (by positivity),
          ← Int.ofNat_tdiv]
      rw [hfd] at hng
      have h3 : 3 ≤ S.length / (kN + 1) := by exact_mod_cast hng
      have h4 := (Nat.le_div_iff_mul_le (by omega)).1 h3
      omega
    · rw [if_neg hng]
      exact find_linear_eq S T _ hS

theorem validMatches_all (S T : List α) (k : Int)
    (hk : (S.length : Int) ≤ k) :
    validMatches S T k =
      (List.range (T.length + 1 - S.length)).map (canonMatch S T) := by
  rw [validMatches]
  have hcongr : ∀ w ∈ List.range (T.length + 1 - S.length),
      (if (windowDist S T w : Int) ≤ k then some (canonMatch S T w)
        else none) = (some ∘ canonMatch S T) w := by
    intro w _
    simp only [Function.comp_apply]
    rw [if_pos]
    have := windowDist_le S T w
    omega
  rw [List.filterMap_congr hcongr, List.filterMap_eq_map]

theorem validMatches_nil_of_short (S T : List α) (k : Int) (_hS : S ≠ [])
    (hshort : T.length < S.length) : validMatches S T k = [] := by
  rw [validMatches]
  have h0 : T.length + 1 - S.length = 0 := by omega
  rw [h0]
  rfl

/-! ### Degenerate inputs: negative budgets and empty subsequences -/

theorem validMatches_nil_of_neg (S T : List α) (k : Int) (hk : k < 0) :
    validMatches S T k = [] := by
  rw [validMatches, List.filterMap_eq_nil_iff]
  intro w _
  rw [if_neg]
  have h0 : (0 : Int) ≤ (windowDist S T w : Int) := by positivity
  omega

theorem fdiv_pos_negSucc (m n : Nat) :
    (Int.ofNat (m + 1)).fdiv (Int.negSucc n) = Int.negSucc (m / (n + 1)) := rfl

theorem fragmentStarts_negSucc (S : List α) (n : Nat) :
    fragmentStarts S (Int.negSucc n) = [] := by
  have hlt := Int.negSucc_lt_zero n
  simp only [fragmentStarts, pyRange]
  rw [if_neg (Int.negSucc_ne_zero n),
    if_neg (by omega : ¬ (0 : Int) < Int.negSucc n)]
  have harg : (S.length : Int) - Int.negSucc n + 1 - 0 + Int.negSucc n + 1 =
      Int.ofNat (S.length + 1 + 1) := by
    have hcast : ((S.length + 1 + 1 : Nat) : Int) = Int.ofNat (S.length + 1 + 1) := rfl
    rw [← hcast]
    push_cast
    ring
  rw [harg, fdiv_pos_negSucc]
  rfl

theorem ngramsRaw_zeroDivision (S T : List α) (k : Int) (hk : k + 1 = 0) :
    ngramsRaw S T k = .error Err.zeroDivision := by
  simp only [ngramsRaw]
  rw [if_pos hk]

theorem ngramsRaw_neg (S T : List α) (k : Int) (hS : S ≠ []) (hk : k ≤ -2) :
    ngramsRaw S T k = .ok ([] : List Match) := by
  obtain ⟨n, hn⟩ := Int.eq_negSucc_of_lt_zero (by omega : k + 1 < 0)
  obtain ⟨m, hm⟩ : ∃ m : Nat, S.length = m + 1 :=
    ⟨S.length - 1, by have := List.length_pos.2 hS; omega⟩
  have hcast : (S.length : Int) = Int.ofNat (m + 1) := by rw [hm]; rfl
  simp only [ngramsRaw]
  rw [if_neg (by omega), hn, hcast, fdiv_pos_negSucc,
    if_neg (Int.negSucc_ne_zero _)]
  congr 1
  unfold ngramsLoop
  rw [fragmentStarts_negSucc]
  rfl

theorem ngramsRaw_empty_subseq (T : List α) (k : Int) (hk : k + 1 ≠ 0) :
    ngramsRaw ([] : List α) T k = .error Err.budgetExceedsLength := by
  simp only [ngramsRaw]
  rw [if_neg hk]
  rw [if_pos (by simp [Int.zero_fdiv] : ((([] : List α).length : Int)).fdiv (k + 1) = 0)]

/-! ### Remaining small facts used by the claim theorems -/

theorem canonMatch_stop (S T : List α) (w : Nat) :
    (canonMatch S T w).stop = (w : Int) + S.length := rfl

theorem canonMatch_dist (S T : List α) (w : Nat) :
    (canonMatch S T w).dist = (windowDist S T w : Int) := rfl

theorem canonMatch_invariant (S T : List α) (k : Int) (w : Nat)
    (hw : ValidStart S T k w) : MatchInvariant S T k (canonMatch S T w) := by
  obtain ⟨h1, h2⟩ := hw
  refine ⟨?_, ?_, ?_, ?_, ⟨w, rfl, rfl⟩, ?_⟩
  · rw [canonMatch_start]; positivity
  · rw [canonMatch_start, canonMatch_stop]
    have : (0 : Int) ≤ (S.length : Int) := by positivity
    omega
  · rw [canonMatch_stop]; omega
  · rw [canonMatch_start, canonMatch_stop]; ring
  · rw [canonMatch_dist]; exact h2

theorem validMatches_ne_nil_iff (S T : List α) (k : Int) (hS : S ≠ []) :
    validMatches S T k ≠ [] ↔ ∃ w, ValidStart S T k w := by
  constructor
  · intro h
    obtain ⟨m, hm⟩ := List.exists_mem_of_ne_nil _ h
    obtain ⟨w, hw, _⟩ := (mem_validMatches hS m).1 hm
    exact ⟨w, hw⟩
  · rintro ⟨w, hw⟩ hnil
    have hmem := (mem_validMatches hS (canonMatch S T w)).2 ⟨w, hw, rfl⟩
    rw [hnil] at hmem
    cases hmem

/-! ### The claims -/

/-- C1: for every non-empty subsequence `S`, sequence `T` and integer
`K ≥ 0`, `find_near_matches_substitutions` returns matches whose set of
`start` values is exactly the set of window starts `i` with
`0 ≤ i ≤ len(T) - len(S)` whose elementwise mismatch count against `S` is at
most `K`. -/
theorem claim_C1 (S T : List α) (k : Int) (hS : S ≠ []) (hk : 0 ≤ k) :
    ∃ ms, find_near_matches_substitutions S T k = .ok ms ∧
      ∀ z : Int, (z ∈ ms.map Match.start ↔
        ∃ w : Nat, z = (w : Int) ∧ w + S.length ≤ T.length ∧
          (windowDist S T w : Int) ≤ k) := by
  refine ⟨validMatches S T k, dispatcher_eq S T k hS hk, ?_⟩
  intro z
  rw [List.mem_map]
  constructor
  · rintro ⟨m, hm, rfl⟩
    obtain ⟨w, ⟨hw1, hw2⟩, rfl⟩ := (mem_validMatches hS m).1 hm
    exact ⟨w, rfl, hw1, hw2⟩
  · rintro ⟨w, rfl, hw1, hw2⟩
    exact ⟨canonMatch S T w,
      (mem_validMatches hS _).2 ⟨w, ⟨hw1, hw2⟩, rfl⟩, rfl⟩

theorem claim_C1_witness :
    ∃ ms, find_near_matches_substitutions [1, 2] [0, 1, 2, 1, 2] (1 : Int) =
        .ok ms ∧
      ∀ z : Int, (z ∈ ms.map Match.start ↔
        ∃ w : Nat, z = (w : Int) ∧ w + [1, 2].length ≤ [0, 1, 2, 1, 2].length ∧
          (windowDist [1, 2] [0, 1, 2, 1, 2] w : Int) ≤ 1) :=
  claim_C1 [1, 2] [0, 1, 2, 1, 2] 1 (by decide) (by decide)

/-- C2: for every non-empty `S`, `T` and `K ≥ 0` with `len(S) ≥ K + 1`, the
set of `(start, dist)` pairs yielded by the linear matcher equals the set of
`(start, dist)` pairs yielded by the raw ngram enumeration. -/
theorem claim_C2 (S T : List α) (k : Int) (hS : S ≠ []) (hk : 0 ≤ k)
    (hkL : k + 1 ≤ (S.length : Int)) :
    ∃ lin raw,
      find_near_matches_substitutions_linear_programming S T k = .ok lin ∧
      ngramsRaw S T k = .ok raw ∧
      ∀ pr : Int × Int, ((pr ∈ lin.map fun m => (m.start, m.dist)) ↔
        pr ∈ raw.map fun m => (m.start, m.dist)) := by
  refine ⟨validMatches S T k, _, find_linear_eq S T k hS,
    ngramsRaw_ok S T k hk hkL, ?_⟩
  intro pr
  rw [List.mem_map, List.mem_map]
  constructor
  · rintro ⟨m, hm, rfl⟩
    refine ⟨m, ?_, rfl⟩
    rw [ngramsLoop_mem_default S T k hk hkL]
    exact (mem_validMatches hS m).1 hm
  · rintro ⟨m, hm, rfl⟩
    refine ⟨m, ?_, rfl⟩
    rw [mem_validMatches hS]
    exact (ngramsLoop_mem_default S T k hk hkL m).1 hm

theorem claim_C2_witness :
    ∃ lin raw,
      find_near_matches_substitutions_linear_programming [1, 2, 3]
        [1, 2, 9, 1, 2, 3] (1 : Int) = .ok lin ∧
      ngramsRaw [1, 2, 3] [1, 2, 9, 1, 2, 3] (1 : Int) = .ok raw ∧
      ∀ pr : Int × Int, ((pr ∈ lin.map fun m => (m.start, m.dist)) ↔
        pr ∈ raw.map fun m => (m.start, m.dist)) :=
  claim_C2 [1, 2, 3] [1, 2, 9, 1, 2, 3] 1 (by decide) (by decide) (by decide)

/-- C3 counterexample: for `len(S) = 10` and `K = 3` the fragment length is
`g = 10 // 4 = 2`, `len(S)` is an exact multiple of `g`, yet the fragment
loop carves `5` fragments: more than `K + 1 = 4`, refuting both the "at most
K+1" bound and the "exactly K+1 when len(S) is a multiple of g" clause. -/
theorem claim_C3_counterexample :
    Int.fdiv (10 : Int) (3 + 1) = 2 ∧
      (fragmentStarts (List.range 10) (Int.fdiv (10 : Int) (3 + 1))).length =
        5 ∧
      10 % 2 = 0 ∧
      ¬ ((fragmentStarts (List.range 10)
        (Int.fdiv (10 : Int) (3 + 1))).length ≤ 3 + 1) := by
  refine ⟨by decide, ?_, by decide, ?_⟩ <;> decide

/-- C3 amended: for every non-empty `S` and `K ≥ 0` with fragment length
`g = len(S) // (K + 1) ≥ 1`, the fragment loop carves exactly
`len(S) // g` fragments; this is always at least `K + 1`, and is exactly
`K + 1` whenever `len(S)` is an exact multiple of `K + 1`. -/
theorem claim_C3_amended (S : List α) (kN : Nat)
    (hg : 1 ≤ S.length / (kN + 1)) :
    (fragmentStarts S ((S.length : Int).fdiv ((kN : Int) + 1))).length =
        S.length / (S.length / (kN + 1)) ∧
      kN + 1 ≤
        (fragmentStarts S ((S.length : Int).fdiv ((kN : Int) + 1))).length ∧
      ((kN + 1) ∣ S.length →
        (fragmentStarts S ((S.length : Int).fdiv ((kN : Int) + 1))).length =
          kN + 1) := by
  have hfd : (S.length : Int).fdiv ((kN : Int) + 1) =
      ((S.length / (kN + 1) : Nat) : Int) := by
    have h1 : ((kN : Int) + 1) = ((kN + 1 : Nat) : Int) := by push_cast; ring
    rw [h1, Int.fdiv_eq_tdiv (by positivity) (by positivity),
      ← Int.ofNat_tdiv]
  have hlen : (fragmentStarts S
      ((S.length : Int).fdiv ((kN : Int) + 1))).length =
      S.length / (S.length / (kN + 1)) := by
    rw [hfd]
    have := congrArg List.length
      (fragmentStarts_toNat S (S.length / (kN + 1)) hg)
    rw [List.length_map, List.length_map, List.length_range] at this
    exact this
  have hmul : (kN + 1) * (S.length / (kN + 1)) ≤ S.length := by
    calc (kN + 1) * (S.length / (kN + 1)) =
        S.length / (kN + 1) * (kN + 1) := by ring
    _ ≤ S.length := Nat.div_mul_le_self _ _
  refine ⟨hlen, ?_, ?_⟩
  · rw [hlen]
    exact (Nat.le_div_iff_mul_le (by omega)).2 hmul
  · intro hdvd
    obtain ⟨q, hq⟩ := hdvd
    rw [hlen, hq, Nat.mul_div_cancel_left q (by omega)]
    have hq1 : 1 ≤ q := by
      by_contra hq0
      rw [hq, Nat.mul_div_cancel_left q (by omega)] at hg
      omega
    rw [Nat.mul_div_cancel _ (by omega)]

theorem claim_C3_amended_witness :
    ((fragmentStarts (List.range 10)
        ((( List.range 10).length : Int).fdiv ((3 : Nat) + 1))).length =
          (List.range 10).length / ((List.range 10).length / (3 + 1)) ∧
      3 + 1 ≤ (fragmentStarts (List.range 10)
        (((List.range 10).length : Int).fdiv ((3 : Nat) + 1))).length ∧
      ((3 + 1) ∣ (List.range 10).length →
        (fragmentStarts (List.range 10)
          (((List.range 10).length : Int).fdiv ((3 : Nat) + 1))).length =
            3 + 1)) :=
  claim_C3_amended (List.range 10) 3 (by decide)

/-- C4 counterexample: the linear entry point, called with
`max_substitutions = -1`, does not raise any error: it returns an empty
result, refuting the claim that every public entry point fails with
NegativeBudget on a negative budget. -/
theorem claim_C4_counterexample :
    find_near_matches_substitutions_linear_programming [0] [0] (-1 : Int) =
        .ok ([] : List Match) ∧
      find_near_matches_substitutions_linear_programming [0] [0] (-1 : Int) ≠
        .error Err.negativeBudget := by
  constructor
  · rfl
  · intro h
    rw [show find_near_matches_substitutions_linear_programming [0] [0]
      (-1 : Int) = .ok ([] : List Match) from rfl] at h
    cases h

/-- C4 amended: only the top-level dispatcher rejects a negative budget with
NegativeBudget.  The linear matcher silently yields no matches; the ngram
entry points raise a ZeroDivision error for `K = -1` and silently return an
empty result (respectively `false`) for `K ≤ -2`. -/
theorem claim_C4_amended (S T : List α) (k : Int) (hS : S ≠ []) (hk : k < 0) :
    find_near_matches_substitutions S T k = .error Err.negativeBudget ∧
      find_near_matches_substitutions_linear_programming S T k =
        .ok ([] : List Match) ∧
      (k = -1 → ngramsRaw S T k = .error Err.zeroDivision ∧
        find_near_matches_substitutions_ngrams S T k =
          .error Err.zeroDivision ∧
        has_near_match_substitutions_ngrams S T k =
          .error Err.zeroDivision) ∧
      (k ≤ -2 → ngramsRaw S T k = .ok ([] : List Match) ∧
        find_near_matches_substitutions_ngrams S T k =
          .ok ([] : List Match) ∧
        has_near_match_substitutions_ngrams S T k = .ok false) := by
  refine ⟨?_, ?_, ?_, ?_⟩
  · rw [find_near_matches_substitutions,
      if_neg (by simp [hS] : ¬ S.isEmpty = true), if_pos hk]
  · rw [find_linear_eq S T k hS, validMatches_nil_of_neg S T k hk]
  · intro hk1
    have hz : ngramsRaw S T k = .error Err.zeroDivision :=
      ngramsRaw_zeroDivision S T k (by omega)
    refine ⟨hz, ?_, ?_⟩
    · rw [find_near_matches_substitutions_ngrams, hz]; rfl
    · rw [has_near_match_substitutions_ngrams, hz]; rfl
  · intro hk2
    have hz : ngramsRaw S T k = .ok ([] : List Match) :=
      ngramsRaw_neg S T k hS hk2
    refine ⟨hz, ?_, ?_⟩
    · rw [find_near_matches_substitutions_ngrams, hz]
      simp [Except.map, dedupFirstByStart, List.mergeSort_nil]
    · rw [has_near_match_substitutions_ngrams, hz]; rfl

theorem claim_C4_amended_witness :
    (find_near_matches_substitutions [0] [0] (-2 : Int) =
        .error Err.negativeBudget ∧
      find_near_matches_substitutions_linear_programming [0] [0] (-2 : Int) =
        .ok ([] : List Match) ∧
      ((-2 : Int) = -1 → ngramsRaw [0] [0] (-2 : Int) =
          .error Err.zeroDivision ∧
        find_near_matches_substitutions_ngrams [0] [0] (-2 : Int) =
          .error Err.zeroDivision ∧
        has_near_match_substitutions_ngrams [0] [0] (-2 : Int) =
          .error Err.zeroDivision) ∧
      ((-2 : Int) ≤ -2 → ngramsRaw [0] [0] (-2 : Int) =
          .ok ([] : List Match) ∧
        find_near_matches_substitutions_ngrams [0] [0] (-2 : Int) =
          .ok ([] : List Match) ∧
        has_near_match_substitutions_ngrams [0] [0] (-2 : Int) = .ok false)) :=
  claim_C4_amended [0] [0] (-2) (by decide) (by decide)

/-- C5 counterexample: the ngram existence probe, called with an empty
subsequence and `K = 1`, fails with the BudgetExceedsLength error (the
fragment-length check fires first), not with EmptySubsequence, refuting the
claim that every entry point reports EmptySubsequence on an empty
subsequence. -/
theorem claim_C5_counterexample :
    has_near_match_substitutions_ngrams ([] : List Nat) [0] (1 : Int) =
        .error Err.budgetExceedsLength ∧
      has_near_match_substitutions_ngrams ([] : List Nat) [0] (1 : Int) ≠
        .error Err.emptySubsequence := by
  constructor
  · rfl
  · intro h
    rw [show has_near_match_substitutions_ngrams ([] : List Nat) [0]
      (1 : Int) = .error Err.budgetExceedsLength from rfl] at h
    cases h

/-- C5 amended: on an empty subsequence the dispatcher and the linear entry
point fail eagerly with EmptySubsequence and produce no output; the ngram
entry points also fail before any scan and produce no output, but with
BudgetExceedsLength (or ZeroDivision when `K = -1`), because the
fragment-length check is the first to see the empty subsequence. -/
theorem claim_C5_amended (T : List α) (k : Int) :
    find_near_matches_substitutions ([] : List α) T k =
        .error Err.emptySubsequence ∧
      find_near_matches_substitutions_linear_programming ([] : List α) T k =
        .error Err.emptySubsequence ∧
      (k + 1 ≠ 0 →
        ngramsRaw ([] : List α) T k = .error Err.budgetExceedsLength ∧
        find_near_matches_substitutions_ngrams ([] : List α) T k =
          .error Err.budgetExceedsLength ∧
        has_near_match_substitutions_ngrams ([] : List α) T k =
          .error Err.budgetExceedsLength) ∧
      (k + 1 = 0 →
        ngramsRaw ([] : List α) T k = .error Err.zeroDivision ∧
        find_near_matches_substitutions_ngrams ([] : List α) T k =
          .error Err.zeroDivision ∧
        has_near_match_substitutions_ngrams ([] : List α) T k =
          .error Err.zeroDivision) := by
  refine ⟨?_, ?_, ?_, ?_⟩
  · rw [find_near_matches_substitutions,
      if_pos (show ([] : List α).isEmpty = true from rfl)]
  · rw [find_near_matches_substitutions_linear_programming,
      if_pos (show ([] : List α).isEmpty = true from rfl)]
  · intro hk1
    have hz := ngramsRaw_empty_subseq T k hk1
    refine ⟨hz, ?_, ?_⟩
    · rw [find_near_matches_substitutions_ngrams, hz]; rfl
    · rw [has_near_match_substitutions_ngrams, hz]; rfl
  · intro hk0
    have hz := ngramsRaw_zeroDivision ([] : List α) T k hk0
    refine ⟨hz, ?_, ?_⟩
    · rw [find_near_matches_substitutions_ngrams, hz]; rfl
    · rw [has_near_match_substitutions_ngrams, hz]; rfl

theorem claim_C5_amended_witness :
    (find_near_matches_substitutions ([] : List Nat) [0] (1 : Int) =
        .error Err.emptySubsequence ∧
      find_near_matches_substitutions_linear_programming ([] : List Nat) [0]
        (1 : Int) = .error Err.emptySubsequence ∧
      ((1 : Int) + 1 ≠ 0 →
        ngramsRaw ([] : List Nat) [0] (1 : Int) =
          .error Err.budgetExceedsLength ∧
        find_near_matches_substitutions_ngrams ([] : List Nat) [0] (1 : Int) =
          .error Err.budgetExceedsLength ∧
        has_near_match_substitutions_ngrams ([] : List Nat) [0] (1 : Int) =
          .error Err.budgetExceedsLength) ∧
      ((1 : Int) + 1 = 0 →
        ngramsRaw ([] : List Nat) [0] (1 : Int) = .error Err.zeroDivision ∧
        find_near_matches_substitutions_ngrams ([] : List Nat) [0] (1 : Int) =
          .error Err.zeroDivision ∧
        has_near_match_substitutions_ngrams ([] : List Nat) [0] (1 : Int) =
          .error Err.zeroDivision)) :=
  claim_C5_amended [0] 1

/-- C6: for all valid inputs, every `Match` returned by the dispatcher, the
linear matcher, the public ngram matcher or the raw ngram enumeration
satisfies `0 ≤ start ≤ end ≤ len(T)`, `end - start = len(S)`, `dist` equal to
the true elementwise mismatch count of its window, and `dist ≤ K`. -/
theorem claim_C6 (S T : List α) (k : Int) (hS : S ≠ []) (hk : 0 ≤ k) :
    (∀ ms m, find_near_matches_substitutions S T k = .ok ms → m ∈ ms →
      MatchInvariant S T k m) ∧
    (∀ ms m, find_near_matches_substitutions_linear_programming S T k =
      .ok ms → m ∈ ms → MatchInvariant S T k m) ∧
    (k + 1 ≤ (S.length : Int) →
      ∀ ms m, find_near_matches_substitutions_ngrams S T k = .ok ms →
        m ∈ ms → MatchInvariant S T k m) ∧
    (k + 1 ≤ (S.length : Int) →
      ∀ ms m, ngramsRaw S T k = .ok ms → m ∈ ms →
        MatchInvariant S T k m) := by
  have hvalid : ∀ m, m ∈ validMatches S T k → MatchInvariant S T k m := by
    intro m hm
    obtain ⟨w, hw, rfl⟩ := (mem_validMatches hS m).1 hm
    exact canonMatch_invariant S T k w hw
  refine ⟨?_, ?_, ?_, ?_⟩
  · intro ms m hok hm
    rw [dispatcher_eq S T k hS hk] at hok
    cases hok
    exact hvalid m hm
  · intro ms m hok hm
    rw [find_linear_eq S T k hS] at hok
    cases hok
    exact hvalid m hm
  · intro hkL ms m hok hm
    rw [find_ngrams_eq S T k hS hk hkL] at hok
    cases hok
    exact hvalid m hm
  · intro hkL ms m hok hm
    rw [ngramsRaw_ok S T k hk hkL] at hok
    cases hok
    obtain ⟨w, hw, rfl⟩ := (ngramsLoop_mem_default S T k hk hkL m).1 hm
    exact canonMatch_invariant S T k w hw

theorem claim_C6_witness :
    ((∀ ms m, find_near_matches_substitutions [1, 2, 3] [1, 9, 3, 1, 2, 3]
        (1 : Int) = .ok ms → m ∈ ms →
        MatchInvariant [1, 2, 3] [1, 9, 3, 1, 2, 3] 1 m) ∧
      (∀ ms m, find_near_matches_substitutions_linear_programming [1, 2, 3]
        [1, 9, 3, 1, 2, 3] (1 : Int) = .ok ms → m ∈ ms →
        MatchInvariant [1, 2, 3] [1, 9, 3, 1, 2, 3] 1 m) ∧
      ((1 : Int) + 1 ≤ (([1, 2, 3] : List Nat).length : Int) →
        ∀ ms m, find_near_matches_substitutions_ngrams [1, 2, 3]
          [1, 9, 3, 1, 2, 3] (1 : Int) = .ok ms → m ∈ ms →
          MatchInvariant [1, 2, 3] [1, 9, 3, 1, 2, 3] 1 m) ∧
      ((1 : Int) + 1 ≤ (([1, 2, 3] : List Nat).length : Int) →
        ∀ ms m, ngramsRaw [1, 2, 3] [1, 9, 3, 1, 2, 3] (1 : Int) = .ok ms →
          m ∈ ms → MatchInvariant [1, 2, 3] [1, 9, 3, 1, 2, 3] 1 m)) :=
  claim_C6 [1, 2, 3] [1, 9, 3, 1, 2, 3] 1 (by decide) (by decide)

/-- C7: for every non-empty `S`, `T` and `K` with `len(S) > K ≥ 0`, the list
returned by `find_near_matches_substitutions_ngrams` is strictly increasing
in `start` (hence duplicate-free and sorted), every returned match occurs in
the raw enumeration, every raw match also occurs in the returned list (so
every distinct `start` yielded by the raw enumeration is kept), and all raw
matches sharing a `start` are identical — hence for each distinct `start`
the returned match is exactly the first (and every) raw match with that
`start`. -/
theorem claim_C7 (S T : List α) (k : Int) (hS : S ≠ []) (hk : 0 ≤ k)
    (hkL : k + 1 ≤ (S.length : Int)) :
    ∃ ms raw, find_near_matches_substitutions_ngrams S T k = .ok ms ∧
      ngramsRaw S T k = .ok raw ∧
      ms.Pairwise (fun a b => a.start < b.start) ∧
      (∀ m ∈ ms, m ∈ raw) ∧
      (∀ m ∈ raw, m ∈ ms) ∧
      (∀ m₁ ∈ raw, ∀ m₂ ∈ raw, m₁.start = m₂.start → m₁ = m₂) := by
  refine ⟨validMatches S T k, _, find_ngrams_eq S T k hS hk hkL,
    ngramsRaw_ok S T k hk hkL, validMatches_pairwise S T k, ?_, ?_, ?_⟩
  · intro m hm
    rw [ngramsLoop_mem_default S T k hk hkL]
    exact (mem_validMatches hS m).1 hm
  · intro m hm
    rw [mem_validMatches hS]
    exact (ngramsLoop_mem_default S T k hk hkL m).1 hm
  · intro m₁ h₁ m₂ h₂ hstart
    obtain ⟨w₁, _, rfl⟩ := (ngramsLoop_mem_default S T k hk hkL m₁).1 h₁
    obtain ⟨w₂, _, rfl⟩ := (ngramsLoop_mem_default S T k hk hkL m₂).1 h₂
    rw [canonMatch_start, canonMatch_start] at hstart
    have hww : w₁ = w₂ := by exact_mod_cast hstart
    rw [hww]

theorem claim_C7_witness :
    ∃ ms raw, find_near_matches_substitutions_ngrams [1, 2] [1, 2, 1, 2]
        (0 : Int) = .ok ms ∧
      ngramsRaw [1, 2] [1, 2, 1, 2] (0 : Int) = .ok raw ∧
      ms.Pairwise (fun a b => a.start < b.start) ∧
      (∀ m ∈ ms, m ∈ raw) ∧
      (∀ m ∈ raw, m ∈ ms) ∧
      (∀ m₁ ∈ raw, ∀ m₂ ∈ raw, m₁.start = m₂.start → m₁ = m₂) :=
  claim_C7 [1, 2] [1, 2, 1, 2] 0 (by decide) (by decide) (by decide)

/-- C8: for every non-empty `S`, `T` and `K` with `len(S) > K ≥ 0`,
`has_near_match_substitutions_ngrams` returns true iff some window of `T` has
at most `K` mismatches against `S`, equivalently iff
`find_near_matches_substitutions_ngrams` returns a non-empty list. -/
theorem claim_C8 (S T : List α) (k : Int) (hS : S ≠ []) (hk : 0 ≤ k)
    (hkL : k + 1 ≤ (S.length : Int)) :
    ∃ b ms, has_near_match_substitutions_ngrams S T k = .ok b ∧
      find_near_matches_substitutions_ngrams S T k = .ok ms ∧
      (b = true ↔ ∃ w, ValidStart S T k w) ∧
      (b = true ↔ ms ≠ []) := by
  obtain ⟨b, hb, hbiff⟩ := has_ngrams_eq S T k hk hkL
  refine ⟨b, validMatches S T k, hb, find_ngrams_eq S T k hS hk hkL,
    hbiff, ?_⟩
  rw [hbiff, validMatches_ne_nil_iff S T k hS]

theorem claim_C8_witness :
    ∃ b ms, has_near_match_substitutions_ngrams [1, 2] [3, 1, 2] (0 : Int) =
        .ok b ∧
      find_near_matches_substitutions_ngrams [1, 2] [3, 1, 2] (0 : Int) =
        .ok ms ∧
      (b = true ↔ ∃ w, ValidStart [1, 2] [3, 1, 2] 0 w) ∧
      (b = true ↔ ms ≠ []) :=
  claim_C8 [1, 2] [3, 1, 2] 0 (by decide) (by decide) (by decide)

/-- C9: for every non-empty `S`, `T` with `len(T) ≥ len(S)`, and
`K ≥ len(S)`, the dispatcher raises no error, routes to the linear matcher,
and returns one `Match` per window start `0 .. len(T) - len(S)`. -/
theorem claim_C9 (S T : List α) (k : Int) (hS : S ≠ [])
    (hTL : S.length ≤ T.length) (hkS : (S.length : Int) ≤ k) :
    ∃ ms, find_near_matches_substitutions S T k = .ok ms ∧
      ms = (List.range (T.length + 1 - S.length)).map (canonMatch S T) ∧
      ms.length = T.length - S.length + 1 ∧
      ∀ w : Nat, w ≤ T.length - S.length → (w : Int) ∈ ms.map Match.start := by
  have hk : 0 ≤ k := le_trans (by positivity) hkS
  have hL : 1 ≤ S.length := List.length_pos.2 hS
  refine ⟨validMatches S T k, dispatcher_eq S T k hS hk,
    validMatches_all S T k hkS, ?_, ?_⟩
  · rw [validMatches_all S T k hkS, List.length_map, List.length_range]
    omega
  · intro w hw
    rw [validMatches_all S T k hkS, List.map_map, List.mem_map]
    exact ⟨w, by rw [List.mem_range]; omega, rfl⟩

theorem claim_C9_witness :
    ∃ ms, find_near_matches_substitutions [5] [5, 6] (1 : Int) = .ok ms ∧
      ms = (List.range ([5, 6].length + 1 - [5].length)).map
        (canonMatch [5] [5, 6]) ∧
      ms.length = [5, 6].length - [5].length + 1 ∧
      ∀ w : Nat, w ≤ [5, 6].length - [5].length →
        (w : Int) ∈ ms.map Match.start :=
  claim_C9 [5] [5, 6] 1 (by decide) (by decide) (by decide)

/-- C10: for every non-empty `S` and budget passing the respective entry
point's validation, if `len(T) < len(S)` then every entry point returns an
empty result (and the existence probe returns false) without error. -/
theorem claim_C10 (S T : List α) (k : Int) (hS : S ≠ []) (hk : 0 ≤ k)
    (hshort : T.length < S.length) :
    find_near_matches_substitutions S T k = .ok ([] : List Match) ∧
      find_near_matches_substitutions_linear_programming S T k =
        .ok ([] : List Match) ∧
      (k + 1 ≤ (S.length : Int) →
        find_near_matches_substitutions_ngrams S T k =
          .ok ([] : List Match) ∧
        has_near_match_substitutions_ngrams S T k = .ok false) := by
  have hnil := validMatches_nil_of_short S T k hS hshort
  refine ⟨?_, ?_, ?_⟩
  · rw [dispatcher_eq S T k hS hk, hnil]
  · rw [find_linear_eq S T k hS, hnil]
  · intro hkL
    constructor
    · rw [find_ngrams_eq S T k hS hk hkL, hnil]
    · obtain ⟨b, hb, hbiff⟩ := has_ngrams_eq S T k hk hkL
      have hbf : b = false := by
        cases b with
        | false => rfl
        | true =>
          obtain ⟨w, hw, _⟩ := hbiff.1 rfl
          omega
      rw [hb, hbf]

theorem claim_C10_witness :
    (find_near_matches_substitutions [1, 2, 3] [1, 2] (1 : Int) =
        .ok ([] : List Match) ∧
      find_near_matches_substitutions_linear_programming [1, 2, 3] [1, 2]
        (1 : Int) = .ok ([] : List Match) ∧
      ((1 : Int) + 1 ≤ (([1, 2, 3] : List Nat).length : Int) →
        find_near_matches_substitutions_ngrams [1, 2, 3] [1, 2] (1 : Int) =
          .ok ([] : List Match) ∧
        has_near_match_substitutions_ngrams [1, 2, 3] [1, 2] (1 : Int) =
          .ok false)) :=
  claim_C10 [1, 2, 3] [1, 2] 1 (by decide) (by decide) (by decide)

end FuzzySub
